import Mathlib

/-!
Verification of the simulation core of `evolve-words` (`src/evolve_words/app.py`).

The Python code is shallowly embedded: strings become lists of characters,
the process-wide random draws (`random.choice`, `random.randint`) become
explicit parameters (an index into the drawn-from range), the worker's
cancellation flag becomes a stream of booleans (one per poll), and the
`while` loop of `EvolveWordsApp.run_world` becomes a fuel-indexed recursion.
Python float arithmetic on the survival ratios is modelled exactly over `ℚ`.
-/

namespace EvolveWords

/-- Python `str` values of the core are modelled as lists of characters. -/
abbrev Word := List Char

/-- The constant `string.ascii_lowercase`: the 26 lowercase ASCII letters. -/
def ascii_lowercase : List Char :=
  ['a', 'b', 'c', 'd', 'e', 'f', 'g', 'h', 'i', 'j', 'k', 'l', 'm',
   'n', 'o', 'p', 'q', 'r', 's', 't', 'u', 'v', 'w', 'x', 'y', 'z']

/-- `Mutate.random_char`, i.e. `choice(ascii_lowercase)`.  The outcome of the
random draw is modelled by the index `i` into the 26 letters. -/
def random_char (i : Fin 26) : Char :=
  ascii_lowercase.get (Fin.cast (by decide) i)

/-- `Mutate.point`: for nonempty `word`,
`word[:position] + Mutate.random_char() + word[position + 1:]` where
`position` is the outcome of `randint(0, len(word) - 1)` and `i` the draw
inside `random_char`.  Python slices `word[:p]` and `word[p:]` are total and
coincide with `List.take p` / `List.drop p`. -/
def point (word : Word) (position : Nat) (i : Fin 26) : Word :=
  if word = [] then word
  else word.take position ++ [random_char i] ++ word.drop (position + 1)

/-- `Mutate.deletion`: for nonempty `word`,
`word[:position] + word[position + 1:]` where `position` is the outcome of
`randint(0, len(word) - 1)`. -/
def deletion (word : Word) (position : Nat) : Word :=
  if word = [] then word
  else word.take position ++ word.drop (position + 1)

/-- `Mutate.insertion`: for nonempty `word`,
`word[:position] + Mutate.random_char() + word[position:]` where `position`
is the outcome of `randint(0, len(word) - 1)` (note: the same range as in
`point` and `deletion`, NOT including the end position `len(word)`). -/
def insertion (word : Word) (position : Nat) (i : Fin 26) : Word :=
  if word = [] then word
  else word.take position ++ [random_char i] ++ word.drop position

/-- One fully determined outcome of the random draws inside
`Mutate.randomly`: which of the three operators `choice((point, deletion,
insertion))` picks, the `randint` position it draws, and (where used) the
letter index drawn inside `random_char`. -/
inductive MutChoice
  | point (position : Nat) (i : Fin 26)
  | deletion (position : Nat)
  | insertion (position : Nat) (i : Fin 26)
  deriving DecidableEq

/-- `Mutate.randomly`: apply the randomly chosen operator. -/
def randomly (ch : MutChoice) (word : Word) : Word :=
  match ch with
  | .point p i => point word p i
  | .deletion p => deletion word p
  | .insertion p i => insertion word p i

/-- The positions `randint(0, len(word) - 1)` can actually produce when the
operators are called on a nonempty `word`: `0 ≤ position ≤ len(word) - 1`. -/
def ValidFor (ch : MutChoice) (word : Word) : Prop :=
  match ch with
  | .point p _ => p < word.length
  | .deletion p => p < word.length
  | .insertion p _ => p < word.length

/-- The results `Mutate.insertion` can actually return on a given word: some
outcome `position` of `randint(0, len(word) - 1)` (so `position < len(word)`)
together with some letter draw.  (On the empty word the function returns its
argument before any random draw is made.) -/
def insertionReachable (w w2 : Word) : Prop :=
  ∃ p i, p < w.length ∧ insertion w p i = w2

/-- C8: every choice of position in the range drawn by `randint(0, len(w)-1)`
and every replacement letter give `len(point w) = len w`,
`len(deletion w) = len w - 1`, `len(insertion w) = len w + 1`, and hence
`randomly` changes the length by at most one. -/
theorem c8_mutation_lengths (w : Word) (hw : w ≠ []) (p : Nat)
    (hp : p < w.length) (i : Fin 26) (ch : MutChoice) (hch : ValidFor ch w) :
    (point w p i).length = w.length ∧
    (deletion w p).length = w.length - 1 ∧
    (insertion w p i).length = w.length + 1 ∧
    ((randomly ch w).length : Int) ≤ (w.length : Int) + 1 ∧
    (w.length : Int) - 1 ≤ ((randomly ch w).length : Int) := by
  have hpoint : ∀ q : Nat, q < w.length → ∀ j : Fin 26,
      (point w q j).length = w.length := by
    intro q hq j
    simp only [point, if_neg hw, List.length_append, List.length_take,
      List.length_drop, List.length_cons, List.length_nil]
    omega
  have hdel : ∀ q : Nat, q < w.length → (deletion w q).length = w.length - 1 := by
    intro q hq
    simp only [deletion, if_neg hw, List.length_append, List.length_take,
      List.length_drop]
    omega
  have hins' : ∀ q : Nat, q < w.length → ∀ j : Fin 26,
      (insertion w q j).length = w.length + 1 := by
    intro q hq j
    simp only [insertion, if_neg hw, List.length_append, List.length_take,
      List.length_drop, List.length_cons, List.length_nil]
    omega
  refine ⟨hpoint p hp i, hdel p hp, hins' p hp i, ?_, ?_⟩ <;>
    · cases ch with
      | point q j =>
        have := hpoint q hch j
        simp only [randomly, this]
        omega
      | deletion q =>
        have := hdel q hch
        simp only [randomly, this]
        omega
      | insertion q j =>
        have := hins' q hch j
        simp only [randomly, this]
        omega

/-- Witness for `c8_mutation_lengths` at `w = "ab"`, `p = 1`. -/
theorem c8_mutation_lengths_witness :
    (point ['a', 'b'] 1 0).length = 2 ∧
    (deletion ['a', 'b'] 1).length = 1 ∧
    (insertion ['a', 'b'] 1 0).length = 3 ∧
    ((randomly (.deletion 1) ['a', 'b']).length : Int) ≤ 3 ∧
    (1 : Int) ≤ ((randomly (.deletion 1) ['a', 'b']).length : Int) := by
  have h := c8_mutation_lengths ['a', 'b'] (by decide) 1 (by decide) 0
    (.deletion 1) (by constructor)
  exact ⟨h.1, h.2.1, h.2.2.1, by decide, by decide⟩

/-- C2 counterexample: inserting at the end position `len(w)` (which the
claim says is choosable) would produce `"abx"` from `"ab"`, but no position
the code's `randint(0, len(word) - 1)` can draw produces `"abx"` for any
letter draw. -/
theorem c2_counterexample :
    insertion ['a', 'b'] 2 (23 : Fin 26) = ['a', 'b', 'x'] ∧
    ¬ insertionReachable ['a', 'b'] ['a', 'b', 'x'] := by
  refine ⟨by decide, ?_⟩
  rintro ⟨p, i, hp, he⟩
  have hp2 : p = 0 ∨ p = 1 := by
    simp only [List.length_cons, List.length_nil] at hp
    omega
  rcases hp2 with h0 | h1
  · subst h0
    revert he
    revert i
    decide
  · subst h1
    revert he
    revert i
    decide

/-- C2 amended: `insertion` draws its position from `[0, len(w) - 1]` (the
same `randint` range as the other operators), so the new letter always lands
strictly before the end: the original last character stays last, while the
result length is still `len(w) + 1`. -/
theorem c2_insertion_amended (w : Word) (hw : w ≠ []) (p : Nat)
    (hp : p < w.length) (i : Fin 26) :
    (insertion w p i).length = w.length + 1 ∧
    (insertion w p i).getLast? = w.getLast? := by
  have hlen : (insertion w p i).length = w.length + 1 := by
    simp only [insertion, if_neg hw, List.length_append, List.length_take,
      List.length_drop, List.length_cons, List.length_nil]
    omega
  refine ⟨hlen, ?_⟩
  have hdrop : w.drop p ≠ [] := by
    intro hnil
    rw [List.drop_eq_nil_iff] at hnil
    omega
  have h1 : (insertion w p i).getLast? = (w.drop p).getLast? := by
    rw [insertion, if_neg hw, List.append_assoc, List.getLast?_append,
      List.getLast?_append]
    cases hlast : (w.drop p).getLast? with
    | none =>
      exact absurd (List.getLast?_eq_none_iff.mp hlast) hdrop
    | some c => rfl
  have h2 : w.getLast? = (w.drop p).getLast? := by
    conv =>
      lhs
      rw [← List.take_append_drop p w]
    rw [List.getLast?_append]
    cases hlast : (w.drop p).getLast? with
    | none =>
      exact absurd (List.getLast?_eq_none_iff.mp hlast) hdrop
    | some c => rfl
  rw [h1, h2]

/-- Witness for `c2_insertion_amended` at `w = "ab"`, `p = 1`. -/
theorem c2_insertion_amended_witness :
    (insertion ['a', 'b'] 1 (0 : Fin 26)).length = 3 ∧
    (insertion ['a', 'b'] 1 (0 : Fin 26)).getLast? = some 'b' :=
  c2_insertion_amended ['a', 'b'] (by decide) 1 (by decide) 0

/-- The `Progress` message dataclass posted once per completed generation.
In the source its last field is the very `survival` list object the loop
keeps appending to; here `survival_history` records the content of that list
at the moment the message is posted (the aliasing itself is modelled by
`observedHistory` below). -/
structure Progress where
  population_size : Nat
  unique_words : List Word
  generation : Nat
  last_cull : Nat
  survival_history : List ℚ
  deriving DecidableEq

/-- The mutable locals of `run_world`: `population`, `generation`, the
`survival` list, the `Progress` messages posted so far, and the number of
cancellation polls (equivalently, `Mutate.randomly` calls) made so far,
indexing the `cancel` and `choices` streams. -/
structure LoopState where
  population : List Word
  generation : Nat
  survival : List ℚ
  events : List Progress
  counter : Nat
  deriving DecidableEq

/-- How a run of `run_world` ends.  `reached` is the
`"Generated {len(set(population))} unique words in {generation}
generations."` notification, `collapsed` the
`"The population collapsed; nobody is left."` one, and `cancelled` is the
bare `return` taken when `worker.is_cancelled` was observed: no
notification at all.  `fuelOut` is an artifact of the fuel-indexed
embedding of the unbounded `while` loop: the run was truncated after
`fuel` generations without the source ever exiting its loop there. -/
inductive Outcome
  | reached (uniqueWords : Nat) (generations : Nat)
  | collapsed
  | cancelled
  | fuelOut
  deriving DecidableEq

/-- The offspring-building `for` loop: for each population member, first
poll `worker.is_cancelled` (poll number `k`; `none` models the early
`return`), then append `Mutate.randomly(word)` (draw number `k`). -/
def makeOffspring (choices : Nat → MutChoice) (cancel : Nat → Bool) :
    List Word → Nat → Option (List Word × Nat)
  | [], k => some ([], k)
  | w :: ws, k =>
    if cancel k then none
    else
      match makeOffspring choices cancel ws (k + 1) with
      | none => none
      | some (os, k2) => some (randomly (choices k) w :: os, k2)

/-- One iteration of the `while` body of `run_world`: build the offspring
(`none` = cancellation observed), extend the population with them, record
`before`, cull through the fitness set `oracle` (the `word in self._words`
test), append this generation's survival ratio, post the `Progress`
message, and advance `generation`.  Python's float expression
`(100 / before) * len(population)` is modelled exactly over `ℚ`. -/
def loopBody (oracle : Word → Bool) (choices : Nat → MutChoice)
    (cancel : Nat → Bool) (st : LoopState) : Option LoopState :=
  match makeOffspring choices cancel st.population st.counter with
  | none => none
  | some (offspring, k2) =>
    let grown := st.population ++ offspring
    let before := grown.length
    let filtered := grown.filter oracle
    let ratio : ℚ :=
      if filtered = [] then 0 else ((100 : ℚ) / (before : ℚ)) * (filtered.length : ℚ)
    let survival2 := st.survival ++ [ratio]
    some
      { population := filtered
        generation := st.generation + 1
        survival := survival2
        events := st.events ++
          [{ population_size := filtered.length
             unique_words := filtered.dedup
             generation := st.generation
             last_cull := before - filtered.length
             survival_history := survival2 }]
        counter := k2 }

/-- The `while population and len(population) < target_population` loop of
`run_world`, with explicit fuel standing in for the unbounded iteration.
On normal exit the final notification is taken. -/
def runLoop (oracle : Word → Bool) (target : Int) (choices : Nat → MutChoice)
    (cancel : Nat → Bool) : Nat → LoopState → LoopState × Outcome
  | 0, st => (st, .fuelOut)
  | fuel + 1, st =>
    if st.population ≠ [] ∧ (st.population.length : Int) < target then
      match loopBody oracle choices cancel st with
      | none => (st, .cancelled)
      | some st2 => runLoop oracle target choices cancel fuel st2
    else
      (st,
        if st.population ≠ [] then
          .reached st.population.dedup.length st.generation
        else .collapsed)

/-- `EvolveWordsApp.run_world(progenitor, target_population)`: run the loop
from `population = [progenitor]`, `generation = 0`, empty survival history. -/
def run_world (oracle : Word → Bool) (progenitor : Word) (target : Int)
    (choices : Nat → MutChoice) (cancel : Nat → Bool) (fuel : Nat) :
    LoopState × Outcome :=
  runLoop oracle target choices cancel fuel
    { population := [progenitor], generation := 0, survival := [],
      events := [], counter := 0 }

/-- In the source, `self.Progress(..., survival)` stores a reference to the
single `survival` list object, and every posted message aliases that same
object.  Dereferencing the `survival_history` field of any already-posted
message once the run is over therefore yields the run's final list content,
not the content at posting time (which the `survival_history` snapshot field
of our `Progress` records). -/
def observedHistory (final : LoopState) (_event : Progress) : List ℚ :=
  final.survival

/-- If some cancellation poll during the offspring pass returns true, the
pass aborts (models the early `return`). -/
theorem makeOffspring_eq_none (choices : Nat → MutChoice) (cancel : Nat → Bool)
    (ws : List Word) (k : Nat)
    (h : ∃ j, j < ws.length ∧ cancel (k + j) = true) :
    makeOffspring choices cancel ws k = none := by
  induction ws generalizing k with
  | nil =>
    obtain ⟨j, hj, _⟩ := h
    simp at hj
  | cons w ws ih =>
    by_cases hc : cancel k
    · simp [makeOffspring, hc]
    · obtain ⟨j, hj, hcj⟩ := h
      cases j with
      | zero => simp at hcj; exact absurd hcj hc
      | succ j =>
        have : makeOffspring choices cancel ws (k + 1) = none := by
          apply ih
          exact ⟨j, by simpa using hj, by have : k + (j + 1) = k + 1 + j := by omega
                                          rwa [this] at hcj⟩
        simp [makeOffspring, hc, this]

/-- C5: if during the offspring-expansion phase one of the per-member polls
of the cancellation flag observes `true`, the loop exits at once with the
state exactly as it was at the start of that generation: no `Progress`
message is posted for the in-progress generation, nothing is appended to
the survival history, and the outcome is the silent `cancelled` exit —
neither the `reached` nor the `collapsed` notification is ever delivered. -/
theorem c5_cancellation_silent (oracle : Word → Bool) (target : Int)
    (choices : Nat → MutChoice) (cancel : Nat → Bool) (st : LoopState)
    (fuel : Nat) (hne : st.population ≠ [])
    (hlt : (st.population.length : Int) < target)
    (hobs : ∃ j, j < st.population.length ∧ cancel (st.counter + j) = true) :
    runLoop oracle target choices cancel (fuel + 1) st = (st, .cancelled) := by
  have hnone := makeOffspring_eq_none choices cancel st.population st.counter hobs
  simp [runLoop, hne, hlt, loopBody, hnone]

/-- Witness for `c5_cancellation_silent`: a flag that is already set when
generation 0 starts freezes the run in its initial state. -/
theorem c5_cancellation_silent_witness :
    runLoop (fun w => decide (w = ['a'])) 5 (fun _ => .point 0 0)
      (fun _ => true) 1
      { population := [['a']], generation := 0, survival := [],
        events := [], counter := 0 } =
    ({ population := [['a']], generation := 0, survival := [],
       events := [], counter := 0 }, .cancelled) :=
  c5_cancellation_silent (fun w => decide (w = ['a'])) 5 (fun _ => .point 0 0)
    (fun _ => true) _ 0 (by decide) (by decide) ⟨0, by decide, by decide⟩

/-- C6: with any target at most 1 (and a nonempty progenitor), the loop
condition `len(population) < target_population` is false at once: the body
never runs, no `Progress` message is posted, and the run reports `reached`
with 1 unique word after 0 generations. -/
theorem c6_trivial_target (oracle : Word → Bool) (choices : Nat → MutChoice)
    (cancel : Nat → Bool) (progenitor : Word) (target : Int) (fuel : Nat)
    (hp : progenitor ≠ []) (ht : target ≤ 1) :
    run_world oracle progenitor target choices cancel (fuel + 1) =
      ({ population := [progenitor], generation := 0, survival := [],
         events := [], counter := 0 }, .reached 1 0) := by
  have hguard : ¬ (([progenitor] : List Word) ≠ [] ∧
      (([progenitor] : List Word).length : Int) < target) := by
    rintro ⟨-, hlt⟩
    simp only [List.length_cons, List.length_nil] at hlt
    omega
  simp only [run_world, runLoop]
  rw [if_neg hguard]
  simp [List.dedup_cons_of_not_mem]

/-- Witness for `c6_trivial_target` at progenitor `"a"`, target 1. -/
theorem c6_trivial_target_witness :
    run_world (fun _ => true) ['a'] 1 (fun _ => .point 0 0)
      (fun _ => false) 1 =
    ({ population := [['a']], generation := 0, survival := [],
       events := [], counter := 0 }, .reached 1 0) :=
  c6_trivial_target (fun _ => true) (fun _ => .point 0 0) (fun _ => false)
    ['a'] 1 0 (by decide) (by decide)

/-- Characterization of a completed (uncancelled) offspring pass: one
offspring per population member, the member's `Mutate.randomly` result, and
the poll counter advanced once per member. -/
theorem makeOffspring_spec (choices : Nat → MutChoice) (cancel : Nat → Bool)
    (ws : List Word) (k : Nat) (os : List Word) (k2 : Nat)
    (h : makeOffspring choices cancel ws k = some (os, k2)) :
    os.length = ws.length ∧ k2 = k + ws.length ∧
    ∀ i w, ws[i]? = some w → os[i]? = some (randomly (choices (k + i)) w) := by
  induction ws generalizing k os with
  | nil =>
    simp only [makeOffspring, Option.some.injEq, Prod.mk.injEq] at h
    obtain ⟨h1, h2⟩ := h
    subst h1; subst h2
    refine ⟨rfl, rfl, ?_⟩
    intro i w hw
    simp at hw
  | cons w ws ih =>
    by_cases hc : cancel k
    · simp [makeOffspring, hc] at h
    · cases hmk : makeOffspring choices cancel ws (k + 1) with
      | none => simp [makeOffspring, hc, hmk] at h
      | some p =>
        obtain ⟨os1, k1⟩ := p
        simp only [makeOffspring, hc, Bool.false_eq_true, if_false, hmk,
          Option.some.injEq, Prod.mk.injEq] at h
        obtain ⟨h1, h2⟩ := h
        subst h2
        obtain ⟨hl, hk, hidx⟩ := ih (k + 1) os1 hmk
        subst h1
        refine ⟨by simp [hl], by simp [hk]; omega, ?_⟩
        intro i v hv
        cases i with
        | zero =>
          simp only [List.getElem?_cons_zero, Option.some.injEq] at hv
          subst hv
          simp
        | succ i =>
          simp only [List.getElem?_cons_succ] at hv ⊢
          have := hidx i v hv
          have harith : k + 1 + i = k + (i + 1) := by omega
          rwa [harith] at this

/-- Characterization of one completed loop body iteration: the successor
state is exactly the source's culled population, incremented generation,
extended survival history and one further posted `Progress` message. -/
theorem loopBody_some (oracle : Word → Bool) (choices : Nat → MutChoice)
    (cancel : Nat → Bool) (st st2 : LoopState)
    (hbody : loopBody oracle choices cancel st = some st2) :
    ∃ os k2,
      makeOffspring choices cancel st.population st.counter = some (os, k2) ∧
      st2 = { population := (st.population ++ os).filter oracle
              generation := st.generation + 1
              survival := st.survival ++
                [if (st.population ++ os).filter oracle = [] then (0 : ℚ)
                 else ((100 : ℚ) / (((st.population ++ os).length : Nat) : ℚ)) *
                   ((((st.population ++ os).filter oracle).length : Nat) : ℚ)]
              events := st.events ++
                [{ population_size := ((st.population ++ os).filter oracle).length
                   unique_words := ((st.population ++ os).filter oracle).dedup
                   generation := st.generation
                   last_cull := (st.population ++ os).length -
                     ((st.population ++ os).filter oracle).length
                   survival_history := st.survival ++
                     [if (st.population ++ os).filter oracle = [] then (0 : ℚ)
                      else ((100 : ℚ) / (((st.population ++ os).length : Nat) : ℚ)) *
                        ((((st.population ++ os).filter oracle).length : Nat) : ℚ)] }]
              counter := k2 } := by
  cases hmk : makeOffspring choices cancel st.population st.counter with
  | none => simp [loopBody, hmk] at hbody
  | some p =>
    obtain ⟨os, k2⟩ := p
    refine ⟨os, k2, rfl, ?_⟩
    simp only [loopBody, hmk, Option.some.injEq] at hbody
    exact hbody.symm

/-- C7: whenever a generation's offspring pass completes (no cancellation),
it produced exactly one offspring — the member's `Mutate.randomly` result —
per existing member, the population handed to the cull filter is the
previous survivors followed by their offspring (parents are not removed),
its size `before` is exactly twice the previous population, and the
`Progress` message of that generation records that same `before` as
`population_size + last_cull`. -/
theorem c7_expansion (oracle : Word → Bool) (choices : Nat → MutChoice)
    (cancel : Nat → Bool) (st st2 : LoopState)
    (hbody : loopBody oracle choices cancel st = some st2) :
    ∃ os k2,
      makeOffspring choices cancel st.population st.counter = some (os, k2) ∧
      os.length = st.population.length ∧
      (∀ i w, st.population[i]? = some w →
        os[i]? = some (randomly (choices (st.counter + i)) w)) ∧
      st2.population = (st.population ++ os).filter oracle ∧
      (st.population ++ os).length = 2 * st.population.length ∧
      ∃ e, st2.events = st.events ++ [e] ∧
        e.population_size + e.last_cull = (st.population ++ os).length := by
  obtain ⟨os, k2, hmk, hst2⟩ := loopBody_some oracle choices cancel st st2 hbody
  obtain ⟨hlen, -, hidx⟩ :=
    makeOffspring_spec choices cancel st.population st.counter os k2 hmk
  refine ⟨os, k2, hmk, hlen, hidx, ?_, ?_, ?_⟩
  · rw [hst2]
  · simp [List.length_append, hlen]
    omega
  · refine ⟨_, by rw [hst2], ?_⟩
    have hfl : ((st.population ++ os).filter oracle).length ≤
        (st.population ++ os).length := List.length_filter_le oracle _
    simp only
    omega

/-- Witness for `c7_expansion`: one generation from population `["a"]` with
an all-accepting draw produces one offspring, pre-cull population of size
2, and a `Progress` message recording `before = 2`. -/
theorem c7_expansion_witness :
    ∃ os k2,
      makeOffspring (fun _ => .point 0 0) (fun _ => false) [['a']] 0 =
        some (os, k2) ∧
      os.length = ([['a']] : List Word).length ∧
      (∀ i w, ([['a']] : List Word)[i]? = some w →
        os[i]? = some (randomly ((fun _ => .point 0 0) (0 + i)) w)) ∧
      ([['a'], ['a']] : List Word) = ([['a']] ++ os).filter
        (fun w => decide (w = ['a'])) ∧
      ([['a']] ++ os).length = 2 * ([['a']] : List Word).length ∧
      ∃ e, [({ population_size := 2, unique_words := [['a']], generation := 0,
               last_cull := 0, survival_history := [(100 : ℚ)] } : Progress)] =
          [] ++ [e] ∧
        e.population_size + e.last_cull = ([['a']] ++ os).length := by
  have hmk : makeOffspring (fun _ => .point 0 0) (fun _ => false) [['a']] 0 =
      some ([['a']], 1) := by decide
  have hbody : loopBody (fun w => decide (w = ['a'])) (fun _ => .point 0 0)
      (fun _ => false)
      { population := [['a']], generation := 0, survival := [], events := [],
        counter := 0 } =
      some { population := [['a'], ['a']], generation := 1,
             survival := [(100 : ℚ)],
             events := [{ population_size := 2, unique_words := [['a']],
                          generation := 0, last_cull := 0,
                          survival_history := [(100 : ℚ)] }],
             counter := 1 } := by
    simp only [loopBody, hmk]
    norm_num
    all_goals decide
  have h := c7_expansion (fun w => decide (w = ['a'])) (fun _ => .point 0 0)
    (fun _ => false)
    { population := [['a']], generation := 0, survival := [], events := [],
      counter := 0 }
    { population := [['a'], ['a']], generation := 1, survival := [(100 : ℚ)],
      events := [{ population_size := 2, unique_words := [['a']],
                   generation := 0, last_cull := 0,
                   survival_history := [(100 : ℚ)] }],
      counter := 1 }
    hbody
  exact h

/-- The survival ratio predicted for a `Progress` message: `100 * after /
before`, where `after` is the message's `population_size` and `before` the
pre-cull size `population_size + last_cull`. -/
def ratioOf (e : Progress) : ℚ :=
  ((100 : ℚ) * (e.population_size : ℚ)) /
    ((e.population_size : ℚ) + (e.last_cull : ℚ))

/-- Run invariant: one survival entry and one posted message per completed
generation; message `i` belongs to generation `i`, records a positive
pre-cull size, its survival entry is `100 * after / before`, and its
snapshot of the history at posting time is the length-`(i+1)` prefix of the
current history. -/
def Inv (st : LoopState) : Prop :=
  st.survival.length = st.generation ∧
  st.events.length = st.generation ∧
  ∀ i e, st.events[i]? = some e →
    e.generation = i ∧
    0 < e.population_size + e.last_cull ∧
    st.survival[i]? = some (ratioOf e) ∧
    e.survival_history = st.survival.take (i + 1)

/-- One completed loop body iteration preserves the run invariant. -/
theorem loopBody_inv (oracle : Word → Bool) (choices : Nat → MutChoice)
    (cancel : Nat → Bool) (st st2 : LoopState) (hne : st.population ≠ [])
    (hbody : loopBody oracle choices cancel st = some st2) (hInv : Inv st) :
    Inv st2 := by
  obtain ⟨os, k2, hmk, hst2⟩ := loopBody_some oracle choices cancel st st2 hbody
  obtain ⟨hsl, hel, hev⟩ := hInv
  subst hst2
  set B := st.population ++ os with hB
  set A := B.filter oracle with hA
  have hAB : A.length ≤ B.length := List.length_filter_le oracle B
  have hBpos : 0 < B.length := by
    have : 0 < st.population.length := List.length_pos.mpr hne
    simp only [hB, List.length_append]
    omega
  set r : ℚ := if A = [] then (0 : ℚ)
    else ((100 : ℚ) / ((B.length : Nat) : ℚ)) * (((A.length : Nat)) : ℚ) with hr
  refine ⟨by simp [hsl], by simp [hel], ?_⟩
  intro i e he
  rcases Nat.lt_trichotomy i st.events.length with hlt | heq | hgt
  · rw [List.getElem?_append_left hlt] at he
    obtain ⟨hg, hpos, hsv, hsnap⟩ := hev i e he
    have hisv : i < st.survival.length := by omega
    refine ⟨hg, hpos, ?_, ?_⟩
    · rw [List.getElem?_append_left hisv]
      exact hsv
    · rw [List.take_append_of_le_length (by omega : i + 1 ≤ st.survival.length)]
      exact hsnap
  · rw [List.getElem?_append_right (by omega : st.events.length ≤ i)] at he
    rw [heq] at he
    simp only [Nat.sub_self, List.getElem?_cons_zero, Option.some.injEq] at he
    subst he
    have hsum : A.length + (B.length - A.length) = B.length := by omega
    refine ⟨by show st.generation = i; omega,
      by show 0 < A.length + (B.length - A.length); omega, ?_, ?_⟩
    · rw [List.getElem?_append_right (by omega : st.survival.length ≤ i),
        show i - st.survival.length = 0 by omega]
      simp only [List.getElem?_cons_zero, Option.some.injEq]
      have hcast : ((A.length : ℚ) + ((B.length - A.length : Nat) : ℚ)) =
          (B.length : ℚ) := by
        rw [← Nat.cast_add]
        exact_mod_cast congrArg (Nat.cast : Nat → ℚ) hsum
      rw [ratioOf]
      simp only [hcast]
      by_cases hAnil : A = []
      · have : A.length = 0 := by rw [hAnil]; rfl
        rw [hr, if_pos hAnil]
        rw [this]
        norm_num
      · rw [hr, if_neg hAnil]
        rw [div_mul_eq_mul_div]
    · have hlen2 : (st.survival ++ [r]).length = i + 1 := by
        simp only [List.length_append, List.length_cons, List.length_nil]
        omega
      rw [List.take_of_length_le (le_of_eq hlen2)]
  · rw [List.getElem?_eq_none] at he
    · exact absurd he (by simp)
    · simp only [List.length_append, List.length_cons, List.length_nil]
      omega

/-- The loop preserves the run invariant for any amount of fuel. -/
theorem runLoop_inv (oracle : Word → Bool) (target : Int)
    (choices : Nat → MutChoice) (cancel : Nat → Bool) :
    ∀ fuel st, Inv st →
      Inv (runLoop oracle target choices cancel fuel st).1 := by
  intro fuel
  induction fuel with
  | zero => intro st h; exact h
  | succ n ih =>
    intro st h
    by_cases hg : st.population ≠ [] ∧ (st.population.length : Int) < target
    · rw [runLoop, if_pos hg]
      cases hb : loopBody oracle choices cancel st with
      | none => exact h
      | some st2 => exact ih st2 (loopBody_inv oracle choices cancel st st2 hg.1 hb h)
    · rw [runLoop, if_neg hg]
      exact h

/-- The initial state of `run_world` satisfies the run invariant. -/
theorem Inv_init (progenitor : Word) :
    Inv { population := [progenitor], generation := 0, survival := [],
          events := [], counter := 0 } := by
  refine ⟨rfl, rfl, ?_⟩
  intro i e he
  simp at he

/-- C3: in every executed generation exactly one entry is appended to the
survival history (`survival` and the posted messages stay in bijection with
completed generations), the pre-cull size `before = population_size +
last_cull` is positive, and the appended entry equals `100 * after /
before` — which also equals `0` whenever `after = 0`, matching the
source's `else` branch. -/
theorem c3_survival_ratio (oracle : Word → Bool) (progenitor : Word)
    (target : Int) (choices : Nat → MutChoice) (cancel : Nat → Bool)
    (fuel : Nat) :
    (run_world oracle progenitor target choices cancel fuel).1.survival.length =
      (run_world oracle progenitor target choices cancel fuel).1.generation ∧
    (run_world oracle progenitor target choices cancel fuel).1.events.length =
      (run_world oracle progenitor target choices cancel fuel).1.generation ∧
    ∀ (i : Nat) (e : Progress),
      (run_world oracle progenitor target choices cancel fuel).1.events[i]? =
        some e →
      0 < e.population_size + e.last_cull ∧
      (run_world oracle progenitor target choices cancel fuel).1.survival[i]? =
        some (((100 : ℚ) * (e.population_size : ℚ)) /
          ((e.population_size : ℚ) + (e.last_cull : ℚ))) := by
  simp only [run_world]
  have h := runLoop_inv oracle target choices cancel fuel
    { population := [progenitor], generation := 0, survival := [],
      events := [], counter := 0 } (Inv_init progenitor)
  obtain ⟨h1, h2, h3⟩ := h
  refine ⟨h1, h2, ?_⟩
  intro i e he
  obtain ⟨-, hpos, hsv, -⟩ := h3 i e he
  exact ⟨hpos, hsv⟩

/-- Evaluation of a concrete two-generation run: fitness set `{"a"}`,
progenitor `"a"`, target 3, every draw a point mutation at position 0
producing the letter `a`, never cancelled.  Both generations keep every
word, so the run reaches the target after two generations with survival
history `[100, 100]`. -/
theorem run2_eval :
    run_world (fun w => decide (w = ['a'])) ['a'] 3 (fun _ => .point 0 0)
      (fun _ => false) 3 =
    ({ population := [['a'], ['a'], ['a'], ['a']], generation := 2,
       survival := [(100 : ℚ), (100 : ℚ)],
       events := [{ population_size := 2, unique_words := [['a']],
                    generation := 0, last_cull := 0,
                    survival_history := [(100 : ℚ)] },
                  { population_size := 4, unique_words := [['a']],
                    generation := 1, last_cull := 0,
                    survival_history := [(100 : ℚ), (100 : ℚ)] }],
       counter := 3 }, .reached 1 2) := by
  have hmk0 : makeOffspring (fun _ => .point 0 0) (fun _ => false) [['a']] 0 =
      some ([['a']], 1) := by decide
  have hmk1 : makeOffspring (fun _ => .point 0 0) (fun _ => false)
      [['a'], ['a']] 1 = some ([['a'], ['a']], 3) := by decide
  have h0 : loopBody (fun w => decide (w = ['a'])) (fun _ => .point 0 0)
      (fun _ => false)
      { population := [['a']], generation := 0, survival := [], events := [],
        counter := 0 } =
      some { population := [['a'], ['a']], generation := 1,
             survival := [(100 : ℚ)],
             events := [{ population_size := 2, unique_words := [['a']],
                          generation := 0, last_cull := 0,
                          survival_history := [(100 : ℚ)] }],
             counter := 1 } := by
    simp only [loopBody, hmk0]
    norm_num
    all_goals decide
  have h1 : loopBody (fun w => decide (w = ['a'])) (fun _ => .point 0 0)
      (fun _ => false)
      { population := [['a'], ['a']], generation := 1,
        survival := [(100 : ℚ)],
        events := [{ population_size := 2, unique_words := [['a']],
                     generation := 0, last_cull := 0,
                     survival_history := [(100 : ℚ)] }],
        counter := 1 } =
      some { population := [['a'], ['a'], ['a'], ['a']], generation := 2,
             survival := [(100 : ℚ), (100 : ℚ)],
             events := [{ population_size := 2, unique_words := [['a']],
                          generation := 0, last_cull := 0,
                          survival_history := [(100 : ℚ)] },
                        { population_size := 4, unique_words := [['a']],
                          generation := 1, last_cull := 0,
                          survival_history := [(100 : ℚ), (100 : ℚ)] }],
             counter := 3 } := by
    simp only [loopBody, hmk1]
    norm_num
    all_goals decide
  show runLoop _ _ _ _ (2 + 1) _ = _
  rw [runLoop, if_pos (by decide), h0]
  show runLoop _ _ _ _ (1 + 1) _ = _
  rw [runLoop, if_pos (by decide), h1]
  show runLoop _ _ _ _ (0 + 1) _ = _
  rw [runLoop, if_neg (by decide)]
  norm_num
  decide

/-- Witness for `c3_survival_ratio`: in the concrete run of `run2_eval`,
generation 0 culled nothing out of 2 candidates and its survival entry is
`100 * 2 / (2 + 0)`. -/
theorem c3_survival_ratio_witness :
    0 < 2 + 0 ∧
    (run_world (fun w => decide (w = ['a'])) ['a'] 3 (fun _ => .point 0 0)
        (fun _ => false) 3).1.survival[0]? =
      some (((100 : ℚ) * ((2 : Nat) : ℚ)) /
        (((2 : Nat) : ℚ) + ((0 : Nat) : ℚ))) := by
  have h := (c3_survival_ratio (fun w => decide (w = ['a'])) ['a'] 3
      (fun _ => .point 0 0) (fun _ => false) 3).2.2 0
    { population_size := 2, unique_words := [['a']], generation := 0,
      last_cull := 0, survival_history := [(100 : ℚ)] }
    (by rw [run2_eval]; rfl)
  exact ⟨h.1, h.2⟩

/-- C1 corrected/amended: every posted `Progress` message aliases the one
survival list, so the history observable through any already-posted message
once the run is over is the run's final history — while the content at
posting time was only its length-`(i+1)` prefix.  Appends of later
generations are therefore visible through already-posted messages (the
message is NOT a value snapshot of the history). -/
theorem c1_history_aliasing (oracle : Word → Bool) (progenitor : Word)
    (target : Int) (choices : Nat → MutChoice) (cancel : Nat → Bool)
    (fuel : Nat) :
    ∀ (i : Nat) (e : Progress),
      (run_world oracle progenitor target choices cancel fuel).1.events[i]? =
        some e →
      observedHistory (run_world oracle progenitor target choices cancel
        fuel).1 e =
        (run_world oracle progenitor target choices cancel fuel).1.survival ∧
      e.survival_history =
        (run_world oracle progenitor target choices cancel
          fuel).1.survival.take (i + 1) := by
  simp only [run_world]
  have h := runLoop_inv oracle target choices cancel fuel
    { population := [progenitor], generation := 0, survival := [],
      events := [], counter := 0 } (Inv_init progenitor)
  intro i e he
  exact ⟨rfl, (h.2.2 i e he).2.2.2⟩

/-- Witness for `c1_history_aliasing` at the run of `run2_eval`, message 0. -/
theorem c1_history_aliasing_witness :
    observedHistory (run_world (fun w => decide (w = ['a'])) ['a'] 3
        (fun _ => .point 0 0) (fun _ => false) 3).1
      { population_size := 2, unique_words := [['a']], generation := 0,
        last_cull := 0, survival_history := [(100 : ℚ)] } =
      (run_world (fun w => decide (w = ['a'])) ['a'] 3 (fun _ => .point 0 0)
        (fun _ => false) 3).1.survival ∧
    ({ population_size := 2, unique_words := [['a']], generation := 0,
       last_cull := 0, survival_history := [(100 : ℚ)] } :
        Progress).survival_history =
      (run_world (fun w => decide (w = ['a'])) ['a'] 3 (fun _ => .point 0 0)
        (fun _ => false) 3).1.survival.take 1 :=
  c1_history_aliasing (fun w => decide (w = ['a'])) ['a'] 3
    (fun _ => .point 0 0) (fun _ => false) 3 0
    { population_size := 2, unique_words := [['a']], generation := 0,
      last_cull := 0, survival_history := [(100 : ℚ)] }
    (by rw [run2_eval]; rfl)

/-- C1 counterexample: in the concrete two-generation run of `run2_eval`,
the history observed through the posted messages after the run (length 2
for both messages, since they alias the final list) is NOT the sequence
each message carried when it was posted (length 1 for the first message):
the second generation's append changed the history held by the
already-posted first message. -/
theorem c1_counterexample :
    (run_world (fun w => decide (w = ['a'])) ['a'] 3 (fun _ => .point 0 0)
        (fun _ => false) 3).1.events.map
      (fun e => (observedHistory (run_world (fun w => decide (w = ['a']))
        ['a'] 3 (fun _ => .point 0 0) (fun _ => false) 3).1 e).length) ≠
    (run_world (fun w => decide (w = ['a'])) ['a'] 3 (fun _ => .point 0 0)
        (fun _ => false) 3).1.events.map
      (fun e => e.survival_history.length) := by
  simp only [run2_eval, observedHistory]
  decide

/-- A word accepted by the fitness test that is in the population stays in
the population through any number of generations (parents are re-filtered
together with their offspring and pass), and the loop can never exit
through the `collapsed` notification. -/
theorem runLoop_mem_population (oracle : Word → Bool) (target : Int)
    (choices : Nat → MutChoice) (cancel : Nat → Bool) (p : Word)
    (hp : oracle p = true) :
    ∀ fuel st, p ∈ st.population →
      p ∈ (runLoop oracle target choices cancel fuel st).1.population ∧
      (runLoop oracle target choices cancel fuel st).2 ≠ .collapsed := by
  intro fuel
  induction fuel with
  | zero =>
    intro st hmem
    exact ⟨hmem, fun h => Outcome.noConfusion h⟩
  | succ n ih =>
    intro st hmem
    by_cases hg : st.population ≠ [] ∧ (st.population.length : Int) < target
    · rw [runLoop, if_pos hg]
      cases hb : loopBody oracle choices cancel st with
      | none => exact ⟨hmem, fun h => Outcome.noConfusion h⟩
      | some st2 =>
        apply ih
        obtain ⟨os, k2, -, hst2⟩ := loopBody_some oracle choices cancel st st2 hb
        rw [hst2]
        exact List.mem_filter.mpr ⟨List.mem_append_left os hmem, hp⟩
    · rw [runLoop, if_neg hg]
      have hne : st.population ≠ [] := by
        intro hnil
        rw [hnil] at hmem
        simp at hmem
      refine ⟨hmem, ?_⟩
      rw [if_pos hne]
      intro hcol
      cases hcol

/-- C4: if the fitness test accepts the progenitor, the progenitor is still
in the population after every generation's cull (for every fuel bound, so
at every point of the run), the population is never empty, and no run can
end with the `collapsed` notification. -/
theorem c4_progenitor_persists (oracle : Word → Bool) (progenitor : Word)
    (target : Int) (choices : Nat → MutChoice) (cancel : Nat → Bool)
    (fuel : Nat) (hp : oracle progenitor = true) :
    progenitor ∈
      (run_world oracle progenitor target choices cancel fuel).1.population ∧
    (run_world oracle progenitor target choices cancel fuel).1.population ≠
      [] ∧
    (run_world oracle progenitor target choices cancel fuel).2 ≠
      .collapsed := by
  have h := runLoop_mem_population oracle target choices cancel progenitor hp
    fuel
    { population := [progenitor], generation := 0, survival := [],
      events := [], counter := 0 }
    (by simp)
  refine ⟨h.1, ?_, h.2⟩
  intro hnil
  have h1 := h.1
  simp only [run_world] at hnil
  rw [hnil] at h1
  simp at h1

/-- Witness for `c4_progenitor_persists` on the concrete run of
`run2_eval`. -/
theorem c4_progenitor_persists_witness :
    ((fun w => decide (w = ['a'])) ['a'] = true) ∧
    (['a'] ∈ (run_world (fun w => decide (w = ['a'])) ['a'] 3
        (fun _ => .point 0 0) (fun _ => false) 3).1.population ∧
      (run_world (fun w => decide (w = ['a'])) ['a'] 3 (fun _ => .point 0 0)
        (fun _ => false) 3).1.population ≠ [] ∧
      (run_world (fun w => decide (w = ['a'])) ['a'] 3 (fun _ => .point 0 0)
        (fun _ => false) 3).2 ≠ .collapsed) :=
  ⟨by decide,
    c4_progenitor_persists (fun w => decide (w = ['a'])) ['a'] 3
      (fun _ => .point 0 0) (fun _ => false) 3 (by decide)⟩

/-- `EvolveWordsApp.DEFAULT_TARGET`, the default target population size. -/
def DEFAULT_TARGET : Int := 3000

/-- The target handling of `EvolveWordsApp.start_world`: the input field is
read with `int(...)`, a `ValueError` yielding 0; then
`if target_population < 1:` the field is reset to `DEFAULT_TARGET` and
`start_world` recurses, re-reading the now-valid field and proceeding to
`run_world` with it.  The result models the target the simulation is
actually started with, paired with whether that substitute-and-retry path
was taken. -/
def start_world (target : Int) : Int × Bool :=
  if target < 1 then (DEFAULT_TARGET, true) else (target, false)

/-- C9 counterexample: an invalid target (0, e.g. unparseable input) is not
rejected — `start_world` substitutes `DEFAULT_TARGET` and retries; and an
empty progenitor is not rejected before the loop either — `run_world` runs
a degenerate generation with it, posting a `Progress` message and ending in
the `collapsed` notification. -/
theorem c9_counterexample :
    start_world 0 = (DEFAULT_TARGET, true) ∧
    (run_world (fun _ => false) [] 2 (fun _ => .point 0 0)
        (fun _ => false) 2).1.events.length = 1 ∧
    (run_world (fun _ => false) [] 2 (fun _ => .point 0 0)
        (fun _ => false) 2).2 = .collapsed := by
  have hmk : makeOffspring (fun _ => .point 0 0) (fun _ => false)
      [([] : Word)] 0 = some ([([] : Word)], 1) := by decide
  have h0 : loopBody (fun _ => false) (fun _ => .point 0 0) (fun _ => false)
      { population := [([] : Word)], generation := 0, survival := [],
        events := [], counter := 0 } =
      some { population := [], generation := 1, survival := [(0 : ℚ)],
             events := [{ population_size := 0, unique_words := [],
                          generation := 0, last_cull := 2,
                          survival_history := [(0 : ℚ)] }],
             counter := 1 } := by
    simp only [loopBody, hmk]
    norm_num
  have hrun : run_world (fun _ => false) [] 2 (fun _ => .point 0 0)
      (fun _ => false) 2 =
      ({ population := [], generation := 1, survival := [(0 : ℚ)],
         events := [{ population_size := 0, unique_words := [],
                      generation := 0, last_cull := 2,
                      survival_history := [(0 : ℚ)] }],
         counter := 1 }, .collapsed) := by
    show runLoop _ _ _ _ (1 + 1) _ = _
    rw [runLoop, if_pos (by decide), h0]
    show runLoop _ _ _ _ (0 + 1) _ = _
    rw [runLoop, if_neg (by decide), if_neg (by decide)]
  refine ⟨by decide, ?_, ?_⟩
  · rw [hrun]
    rfl
  · rw [hrun]

/-- C9 corrected/amended: the core does not fail fast on an invalid target:
`start_world` substitutes `DEFAULT_TARGET` and retries exactly when the
given target is below 1, so the simulation always starts with a target of
at least 1 — the given target itself whenever it was already valid.  (An
empty progenitor is likewise not rejected; see the counterexample.) -/
theorem c9_substituted_retry (t : Int) :
    1 ≤ (start_world t).1 ∧
    ((start_world t).2 = true ↔ t < 1) ∧
    (1 ≤ t → (start_world t).1 = t) := by
  by_cases h : t < 1
  · rw [start_world, if_pos h]
    refine ⟨by norm_num [DEFAULT_TARGET], by simpa using h, ?_⟩
    intro h1
    omega
  · rw [start_world, if_neg h]
    refine ⟨by omega, by simpa using h, fun _ => rfl⟩

/-- Witness for `c9_substituted_retry` at the valid target 5. -/
theorem c9_substituted_retry_witness :
    1 ≤ (start_world 5).1 ∧ ((start_world 5).2 = true ↔ (5 : Int) < 1) ∧
    (start_world 5).1 = 5 :=
  ⟨(c9_substituted_retry 5).1, (c9_substituted_retry 5).2.1,
    (c9_substituted_retry 5).2.2 (by norm_num)⟩

/-- ASCII lowering, the effect of Python's `str.lower` on ASCII characters:
`A`–`Z` (codes 65–90) map to `a`–`z` (codes 97–122), every other ASCII
character is unchanged.  The claims under consideration depend on
`str.lower` only through its ASCII behavior. -/
def lowerChar (c : Char) : Char :=
  if 65 ≤ c.toNat ∧ c.toNat ≤ 90 then Char.ofNat (c.toNat + 32) else c

/-- Lower-casing of a whole word, `word.lower()`. -/
def lowerWord (w : Word) : Word := w.map lowerChar

/-- `EvolveWordsApp.load_words`: the whitespace-split of the word file's
text is given as `tokens`; the stored `self._words` is the set of their
lower-cased forms (represented as a list, membership being what the loop
uses). -/
def load_words (tokens : List Word) : List Word := tokens.map lowerWord

/-- `EvolveWordsApp.progenitor`:
`choice([word for word in self._words if len(word) == 1])`, the random
draw modelled by the index `i` into the candidate list. -/
def progenitor (vocab : List Word) (i : Nat) : Option Word :=
  (vocab.filter (fun w => w.length == 1))[i]?

/-- A character is a lowercase ASCII letter (code 97–122). -/
def isLowerChar (c : Char) : Bool := (97 ≤ c.toNat) && (c.toNat ≤ 122)

/-- A word consists only of lowercase ASCII letters. -/
def isLowerWord (w : Word) : Bool := w.all isLowerChar

/-- C10 counterexample: lower-casing does not make vocabulary entries
lowercase ASCII letters.  Loading the tokens `["&", "ab"]` gives `"&"` as
the single one-letter progenitor candidate, so a run starts with the word
`"&"` in its population — a word that does not consist of lowercase ASCII
letters. -/
theorem c10_counterexample :
    progenitor (load_words [['&'], ['a', 'b']]) 0 = some ['&'] ∧
    (run_world (fun _ => false) ['&'] 5 (fun _ => .point 0 0)
        (fun _ => false) 0).1.population = [['&']] ∧
    isLowerWord ['&'] = false := by
  refine ⟨by decide, by decide, by decide⟩

/-- Codepoints below the surrogate range round-trip through `Char.ofNat`. -/
theorem toNat_ofNat_of_lt (n : Nat) (hn : n < 55296) :
    (Char.ofNat n).toNat = n := by
  have hv : n.isValidChar := Or.inl hn
  unfold Char.ofNat
  rw [dif_pos hv]
  rfl

/-- Every letter `Mutate.random_char` can draw is a lowercase ASCII
letter. -/
theorem random_char_isLower : ∀ i : Fin 26, isLowerChar (random_char i) = true := by
  decide

/-- `Mutate.randomly` preserves "consists only of lowercase ASCII letters":
it only ever substitutes or inserts letters drawn by `random_char`. -/
theorem randomly_isLower (ch : MutChoice) (w : Word)
    (hw : isLowerWord w = true) : isLowerWord (randomly ch w) = true := by
  have hmem : ∀ c ∈ w, isLowerChar c = true := by
    simpa [isLowerWord, List.all_eq_true] using hw
  have hgoal : ∀ (u : Word), (∀ c ∈ u, isLowerChar c = true) →
      isLowerWord u = true := by
    intro u hu
    simpa [isLowerWord, List.all_eq_true] using hu
  cases ch with
  | point p i =>
    rw [randomly, point]
    split
    · exact hw
    · apply hgoal
      intro c hc
      rcases List.mem_append.mp hc with hc1 | hc2
      · rcases List.mem_append.mp hc1 with hc3 | hc4
        · exact hmem c (List.take_subset p w hc3)
        · simp only [List.mem_cons, List.not_mem_nil, or_false] at hc4
          subst hc4
          exact random_char_isLower i
      · exact hmem c (List.drop_subset (p + 1) w hc2)
  | deletion p =>
    rw [randomly, deletion]
    split
    · exact hw
    · apply hgoal
      intro c hc
      rcases List.mem_append.mp hc with hc1 | hc2
      · exact hmem c (List.take_subset p w hc1)
      · exact hmem c (List.drop_subset (p + 1) w hc2)
  | insertion p i =>
    rw [randomly, insertion]
    split
    · exact hw
    · apply hgoal
      intro c hc
      rcases List.mem_append.mp hc with hc1 | hc2
      · rcases List.mem_append.mp hc1 with hc3 | hc4
        · exact hmem c (List.take_subset p w hc3)
        · simp only [List.mem_cons, List.not_mem_nil, or_false] at hc4
          subst hc4
          exact random_char_isLower i
      · exact hmem c (List.drop_subset p w hc2)

/-- A completed offspring pass over an all-lowercase population produces
only all-lowercase offspring. -/
theorem makeOffspring_isLower (choices : Nat → MutChoice)
    (cancel : Nat → Bool) (ws : List Word) (k : Nat) (os : List Word)
    (k2 : Nat) (h : makeOffspring choices cancel ws k = some (os, k2))
    (hws : ∀ w ∈ ws, isLowerWord w = true) :
    ∀ w ∈ os, isLowerWord w = true := by
  obtain ⟨hlen, -, hidx⟩ := makeOffspring_spec choices cancel ws k os k2 h
  intro w hw
  obtain ⟨n, hn⟩ := List.mem_iff_getElem?.mp hw
  have hnlt : n < os.length := by
    by_contra hge
    rw [List.getElem?_eq_none (by omega)] at hn
    exact Option.noConfusion hn
  have hnws : n < ws.length := by omega
  have hv := hidx n ws[n] (List.getElem?_eq_getElem hnws)
  rw [hn] at hv
  have hw2 : w = randomly (choices (k + n)) ws[n] := by
    exact Option.some.inj hv
  rw [hw2]
  exact randomly_isLower _ _ (hws _ (List.getElem_mem hnws))

/-- One completed generation preserves "every population member consists
only of lowercase ASCII letters". -/
theorem loopBody_isLower (oracle : Word → Bool) (choices : Nat → MutChoice)
    (cancel : Nat → Bool) (st st2 : LoopState)
    (hbody : loopBody oracle choices cancel st = some st2)
    (h : ∀ w ∈ st.population, isLowerWord w = true) :
    ∀ w ∈ st2.population, isLowerWord w = true := by
  obtain ⟨os, k2, hmk, hst2⟩ := loopBody_some oracle choices cancel st st2 hbody
  intro w hw
  rw [hst2] at hw
  have hw2 := (List.mem_filter.mp hw).1
  rcases List.mem_append.mp hw2 with h1 | h2
  · exact h w h1
  · exact makeOffspring_isLower choices cancel st.population st.counter os k2
      hmk h w h2

/-- The loop preserves "every population member consists only of lowercase
ASCII letters" for any amount of fuel. -/
theorem runLoop_isLower (oracle : Word → Bool) (target : Int)
    (choices : Nat → MutChoice) (cancel : Nat → Bool) :
    ∀ fuel st, (∀ w ∈ st.population, isLowerWord w = true) →
      ∀ w ∈ (runLoop oracle target choices cancel fuel st).1.population,
        isLowerWord w = true := by
  intro fuel
  induction fuel with
  | zero => intro st h; exact h
  | succ n ih =>
    intro st h
    by_cases hg : st.population ≠ [] ∧ (st.population.length : Int) < target
    · rw [runLoop, if_pos hg]
      cases hb : loopBody oracle choices cancel st with
      | none => exact h
      | some st2 =>
        exact ih st2 (loopBody_isLower oracle choices cancel st st2 hb h)
    · rw [runLoop, if_neg hg]
      exact h

/-- C10 corrected/amended: the mutation operators only substitute or insert
lowercase ASCII letters, so IF the starting population consists only of
lowercase-ASCII-letter words, every later population does too; the loaded
vocabulary is lower-cased, so it never contains an uppercase ASCII letter;
and a lowercase-letters word is fixed by lower-casing, so for such words
the loop's plain membership test coincides with the case-normalized
membership contract.  (Lower-casing does not force vocabulary entries to
BE lowercase ASCII letters, so the hypothesis on the starting population is
necessary; see the counterexample.) -/
theorem c10_lowercase_amended (oracle : Word → Bool) (target : Int)
    (choices : Nat → MutChoice) (cancel : Nat → Bool) (fuel : Nat)
    (st : LoopState) (h : ∀ w ∈ st.population, isLowerWord w = true) :
    (∀ w ∈ (runLoop oracle target choices cancel fuel st).1.population,
      isLowerWord w = true) ∧
    (∀ (tokens : List Word) (w : Word), w ∈ load_words tokens →
      ∀ c ∈ w, ¬(65 ≤ c.toNat ∧ c.toNat ≤ 90)) ∧
    (∀ w : Word, isLowerWord w = true → lowerWord w = w) := by
  refine ⟨runLoop_isLower oracle target choices cancel fuel st h, ?_, ?_⟩
  · intro tokens w hw c hc
    obtain ⟨t, -, ht⟩ := List.mem_map.mp hw
    rw [← ht] at hc
    obtain ⟨d, -, hd⟩ := List.mem_map.mp hc
    rw [← hd, lowerChar]
    split
    · rename 65 ≤ d.toNat ∧ d.toNat ≤ 90 => hup
      rw [toNat_ofNat_of_lt (d.toNat + 32) (by omega)]
      omega
    · rename ¬(65 ≤ d.toNat ∧ d.toNat ≤ 90) => hnup
      exact hnup
  · intro w hw
    have hmem : ∀ c ∈ w, isLowerChar c = true := by
      simpa [isLowerWord, List.all_eq_true] using hw
    rw [lowerWord]
    rw [List.map_congr_left (g := id) ?_, List.map_id]
    intro c hc
    have := hmem c hc
    simp only [isLowerChar, Bool.and_eq_true, decide_eq_true_eq] at this
    rw [lowerChar, if_neg (by omega)]
    rfl

/-- Witness for `c10_lowercase_amended`: starting from the all-lowercase
population `["a"]`. -/
theorem c10_lowercase_amended_witness :
    (∀ w ∈ (runLoop (fun _ => true) 1 (fun _ => .point 0 0) (fun _ => false)
        1 { population := [['a']], generation := 0, survival := [],
            events := [], counter := 0 }).1.population,
      isLowerWord w = true) ∧
    (∀ (tokens : List Word) (w : Word), w ∈ load_words tokens →
      ∀ c ∈ w, ¬(65 ≤ c.toNat ∧ c.toNat ≤ 90)) ∧
    (∀ w : Word, isLowerWord w = true → lowerWord w = w) :=
  c10_lowercase_amended (fun _ => true) 1 (fun _ => .point 0 0)
    (fun _ => false) 1
    { population := [['a']], generation := 0, survival := [], events := [],
      counter := 0 }
    (by
      intro w hw
      simp only [List.mem_cons, List.not_mem_nil, or_false] at hw
      subst hw
      decide)

end EvolveWords
